import Mathlib

/-
  Verification development for the ld2json / json2ld repository
  (src/ld2json.c, src/json2ld.c, src/main.c).

  The C sources are shallowly embedded below.  Strings are modelled as
  `List Char` (C strings cannot contain the NUL byte; reading past the end
  of a buffer, which C code occasionally does via `s[i+1]`-style lookahead
  on the terminator, is modelled by `charAt` returning the NUL character
  '\x00').  File streams are modelled as a list of input lines plus the
  1-based line counter and the single static line buffer used by
  `get_line`.  Recursion in the C parsers is driven by a fuel parameter:
  every loop iteration of the C code consumes exactly one input line, so
  `number of lines + 1` fuel always suffices; the `outOfFuel` diagnostic is
  unreachable for the entry points used in the theorems.
-/

-- The LC abbreviation: a C string (no NUL bytes inside).
abbrev LC := List Char

-- Literal brace characters, written via escapes.
def lbrace : Char := '\x7b'
def rbrace : Char := '\x7d'

def toL (s : String) : LC := s.toList

-- C `isspace` for the ASCII locale.
def isSpaceC (c : Char) : Bool :=
  c = ' ' ∨ c = '\t' ∨ c = '\n' ∨ c = '\x0b' ∨ c = '\x0c' ∨ c = '\r'

-- C `isdigit`.
def isDigitC (c : Char) : Bool := '0' ≤ c ∧ c ≤ '9'

-- C `tolower` on ASCII.
def toLowerC (c : Char) : Char :=
  if 'A' ≤ c ∧ c ≤ 'Z' then Char.ofNat (c.toNat + 32) else c

-- `strcasecmp(a, b) == 0`.
def lowerEq (a b : LC) : Bool := a.map toLowerC = b.map toLowerC

-- Reading a byte of a C string, with the NUL terminator (and anything past
-- it) modelled as '\x00'.
def charAt (l : LC) (i : Nat) : Char := l.getD i '\x00'

-- Skip leading ' ' characters (the parsers' `while (*lp == ' ') lp++`).
def dropSpaces (l : LC) : LC := l.dropWhile (fun c => c = ' ')

-- Count leading ' ' characters (the parsers' indent bookkeeping).
def countSpaces (l : LC) : Nat := (l.takeWhile (fun c => c = ' ')).length

-- Drop leading ' ' characters, but at most `n` of them
-- (`while (*lp == ' ' && i < indent)`).
def dropSpacesUpTo : LC → Nat → LC
  | l, 0 => l
  | [], _ => []
  | c :: r, Nat.succ n => if c = ' ' then dropSpacesUpTo r n else c :: r

-- Trim trailing `isspace` characters in place
-- (`while (e >= data && isspace(*e)) *e-- = '\0';`).
def trimTrailing (l : LC) : LC := (l.reverse.dropWhile (fun c => isSpaceC c)).reverse

-- Trim leading and trailing ' ' characters (only spaces, as in
-- `valid_number`'s `s[i] == ' '` loops).
def trimSpacesBoth (l : LC) : LC :=
  ((l.dropWhile (fun c => c = ' ')).reverse.dropWhile (fun c => c = ' ')).reverse

-- Strip trailing '\n' / '\r' characters (get_line).
def stripNL (l : LC) : LC :=
  (l.reverse.dropWhile (fun c => c = '\n' ∨ c = '\r')).reverse

def natOfDigits (l : LC) : Nat := l.foldl (fun a c => a * 10 + (c.toNat - 48)) 0

-- Decimal rendering of a natural number (fuel-driven so that it reduces
-- definitionally; fuel `n + 1` always suffices).
def natToLCAux : Nat → Nat → LC
  | 0, _ => []
  | Nat.succ _, 0 => []
  | Nat.succ f, Nat.succ n =>
      natToLCAux f ((Nat.succ n) / 10) ++ [Char.ofNat ((Nat.succ n) % 10 + 48)]

def natToLC (n : Nat) : LC :=
  if n = 0 then ['0'] else natToLCAux (n + 1) n

-- printf "%d" of an int (values assumed within the C int range).
def intToLC (n : Int) : LC :=
  if n < 0 then '-' :: natToLC (-n).toNat else natToLC n.toNat

/-
===========================  src/ld2json.c  ===========================
-/

-- static bool valid_number(const char *s)  [src/ld2json.c:418-466]
--
-- The main scanning loop.  `flag` is the C `dot_or_e` flag (set only when
-- an 'e' is seen, tested only when a '.' is seen); `prev` is the character
-- before the current one (none at the very first character of the string,
-- which can never be 'e' because of the pre-loop first-character check).
-- The C bound checks `if (i + 1 > l) return false;` are vacuous (the loop
-- runs with i <= j < l) and are not reproduced.  The exponent lookahead
-- `if (s[i+1] != '+' && s[i+1] != '-' && (s[i+1] >= '0' && s[i] <= '9'))`
-- is reproduced verbatim: since s[i] = 'e' > '9' its conjunct is always
-- false, so it never rejects.
def vnLoop : Bool → Option Char → LC → Bool
  | _, _, [] => true
  | flag, prev, c :: rest =>
    if ¬(c = 'e' ∨ c = '.' ∨ c = '+' ∨ c = '-' ∨ isDigitC c) then false
    else if c = '.' then
      if flag then false
      else if ¬ isDigitC (charAt rest 0) then false
      else vnLoop flag (some c) rest
    else if c = 'e' then
      if ¬ isDigitC (prev.getD '\x00') then false
      else if charAt rest 0 ≠ '+' ∧ charAt rest 0 ≠ '-' ∧
              ('0' ≤ charAt rest 0 ∧ c ≤ '9') then false
      else vnLoop true (some c) rest
    else vnLoop flag (some c) rest

def valid_number (s : LC) : Bool :=
  match trimSpacesBoth s with
  | [] => false
  | c :: rest =>
    if rest = [] ∧ ¬ isDigitC c then false
    else if ¬(c = '.' ∨ c = '+' ∨ c = '-' ∨ isDigitC c) then false
    else vnLoop false none (c :: rest)

-- static bool is_real(const char *s)  [src/ld2json.c:161-176]
def irLoop : Bool → LC → Bool
  | _, [] => false
  | haveDec, c :: rest =>
    if c = '.' then irLoop true rest
    else if haveDec ∧ isDigitC c ∧ '0' < c then true
    else irLoop haveDec rest

def is_real (s : LC) : Bool := irLoop false s

-- strtol(s, NULL, 10): skip isspace, optional sign, leading decimal digits
-- (overflow clamping not modelled; values used stay small).
def strtol10 (s : LC) : Int :=
  match s.dropWhile (fun c => isSpaceC c) with
  | '+' :: r => (natOfDigits (r.takeWhile (fun c => isDigitC c)) : Int)
  | '-' :: r => -(natOfDigits (r.takeWhile (fun c => isDigitC c)) : Int)
  | r => (natOfDigits (r.takeWhile (fun c => isDigitC c)) : Int)

-- Exponent part of strtod: an 'e'/'E' followed by an optional sign and
-- digits.  If no digit follows, strtod does not consume the exponent,
-- which is the same as an exponent of 0.
def strtodExp (t : LC) : Int :=
  match t with
  | c :: r =>
    if c = 'e' ∨ c = 'E' then
      match r with
      | '+' :: d => (natOfDigits (d.takeWhile (fun c => isDigitC c)) : Int)
      | '-' :: d => -(natOfDigits (d.takeWhile (fun c => isDigitC c)) : Int)
      | d => (natOfDigits (d.takeWhile (fun c => isDigitC c)) : Int)
    else 0
  | [] => 0

def strtodSgn (t : LC) : ℚ × LC :=
  match t with
  | '+' :: r => (1, r)
  | '-' :: r => (-1, r)
  | r => (1, r)

-- strtod / atof on the character sets reachable here (digits, '.', '+',
-- '-', 'e'; hex, inf and nan forms are unreachable behind valid_number).
-- IEEE rounding of the resulting double is not modelled: the value is kept
-- as the exact rational the text denotes.
def strtodQ (s : LC) : ℚ :=
  let t := s.dropWhile (fun c => isSpaceC c)
  let p := strtodSgn t
  let ip := p.2.takeWhile (fun c => isDigitC c)
  let t2 := p.2.drop ip.length
  let fp := match t2 with
            | '.' :: r => r.takeWhile (fun c => isDigitC c)
            | _ => []
  let t3 := match t2 with
            | '.' :: r => r.dropWhile (fun c => isDigitC c)
            | r => r
  if ip = [] ∧ fp = [] then 0
  else p.1 * (natOfDigits (ip ++ fp) : ℚ) / ((10 : ℚ) ^ fp.length) *
         ((10 : ℚ) ^ (strtodExp t3))

-- The JSON value tree (the json-c library type: json_object).
inductive JValue : Type where
  | jnull : JValue
  | jbool : Bool → JValue
  | jint : Int → JValue
  | jfloat : ℚ → JValue
  | jstr : LC → JValue
  | jarr : List JValue → JValue
  | jobj : List (LC × JValue) → JValue

-- json_object_object_add: replace in place if the key exists, else append.
def objInsert : List (LC × JValue) → LC → JValue → List (LC × JValue)
  | [], k, v => [(k, v)]
  | (k0, v0) :: r, k, v =>
      if k0 = k then (k0, v) :: r else (k0, v0) :: objInsert r k v

-- Diagnostics printed on stderr by the C code (each records the data text
-- involved, where the message prints one, and the line_number in effect).
inductive Diag : Type where
  | invalidKeyType : LC → Nat → Diag
  | anonymousValue : Nat → Diag
  | invalidBoolean : LC → Nat → Diag
  | invalidNull : LC → Nat → Diag
  | invalidNumber : LC → Nat → Diag
  | unexpectedEOF : Nat → Diag
  | nullKeyCrash : Nat → Diag
  | outOfFuel : Diag
deriving DecidableEq

-- The input stream: remaining lines, the 1-based line counter, and the
-- contents of get_line's single static buffer (parse_array reads the
-- buffer again *after* a nested parse, so the buffer must be tracked).
structure St : Type where
  lines : List LC
  ln : Nat
  buf : LC
deriving DecidableEq

-- static char *get_line(void)  [src/ld2json.c:124-136]
def get_line (st : St) : Option (LC × St) :=
  match st.lines with
  | [] => none
  | l :: ls => some (stripNL l, ⟨ls, st.ln + 1, stripNL l⟩)

-- static char *get_key(char *line)  [src/ld2json.c:96-122]
-- (returns the type tag character followed by the key text, with trailing
-- whitespace trimmed; NULL when nothing remains).
def get_key (line : LC) : Option LC :=
  let s := dropSpaces line
  if s = [] then none
  else
    let k := trimTrailing (s.drop 3)
    if k = [] then none else some k

-- static bool is_blank(char *line)  [src/ld2json.c:150-159]
def is_blank (line : LC) : Bool := line.all (fun c => isSpaceC c)

-- The scalar-coercion switch of parse_object [src/ld2json.c:328-358].
-- Returns the new contents of the C `value` variable (none = NULL pointer,
-- which json-c renders as a JSON null).
def coerceObjScalar (tag : Char) (d : LC) (ln : Nat) : Except Diag (Option JValue) :=
  if tag = '?' then
    if ¬ lowerEq d (toL "true") ∧ ¬ lowerEq d (toL "false") then
      Except.error (Diag.invalidBoolean d ln)
    else Except.ok (some (JValue.jbool (lowerEq d (toL "true"))))
  else if tag = '!' then
    if ¬ lowerEq d (toL "null") then Except.error (Diag.invalidNull d ln)
    else Except.ok none
  else if tag = '#' then
    if ¬ valid_number d then Except.error (Diag.invalidNumber d ln)
    else if is_real d then Except.ok (some (JValue.jfloat (strtodQ d)))
    else Except.ok (some (JValue.jint (strtol10 d)))
  else Except.ok (some (JValue.jstr d))

-- The scalar-coercion switch of parse_array [src/ld2json.c:212-238]:
-- identical except that numbers are always `json_object_new_double(atof(..))`.
def coerceArrScalar (tag : Char) (d : LC) (ln : Nat) : Except Diag (Option JValue) :=
  if tag = '?' then
    if ¬ lowerEq d (toL "true") ∧ ¬ lowerEq d (toL "false") then
      Except.error (Diag.invalidBoolean d ln)
    else Except.ok (some (JValue.jbool (lowerEq d (toL "true"))))
  else if tag = '!' then
    if ¬ lowerEq d (toL "null") then Except.error (Diag.invalidNull d ln)
    else Except.ok none
  else if tag = '#' then
    if ¬ valid_number d then Except.error (Diag.invalidNumber d ln)
    else Except.ok (some (JValue.jfloat (strtodQ d)))
  else Except.ok (some (JValue.jstr d))

-- Data-line processing shared by both parsers [src/ld2json.c:385-411 and
-- 260-287]: strip at most `indent` leading spaces, then reverse the
-- input-side escape (a leading "~~:" + backslash has the backslash
-- removed).
def dataText (line : LC) (indent : Nat) : LC :=
  let lp1 := dropSpacesUpTo line indent
  if lp1.take 3 = ['~', '~', ':'] ∧ charAt lp1 3 = '\\' then
    lp1.take 3 ++ lp1.drop 4
  else lp1

-- The local state of one parse_object / parse_array activation
-- (object/array under construction, the `value`, `key`, `data` variables,
-- and the `indent` counter; parse_object resets indent at each sentinel,
-- parse_array only ever adds to it).
inductive Frame : Type where
  | fobj : List (LC × JValue) → Option JValue → Option LC → Option LC → Nat → Frame
  | farr : List JValue → Option JValue → Option LC → Option LC → Nat → Frame

-- Result of a parser call: the returned json_object (none = NULL), the
-- stream position afterwards, and the diagnostics printed.  An error
-- return does NOT abort enclosing parsers in the C code: the caller keeps
-- reading from wherever the failed parser stopped.
structure PRes : Type where
  val : Option JValue
  st : St
  errs : List Diag

-- Finalization of a pending key in parse_object  [src/ld2json.c:315-375]:
-- result is (new object, new value register, new data register).
def finObj (items : List (LC × JValue)) (value : Option JValue)
    (key : Option LC) (data : Option LC) (ln : Nat) :
    Except Diag (List (LC × JValue) × Option JValue × Option LC) :=
  match key with
  | none => Except.ok (items, value, data)
  | some k =>
    if k.drop 1 = [] then Except.error (Diag.anonymousValue ln)
    else if charAt k 0 = '*' then Except.ok (items, value, none)
    else
      match data with
      | none => Except.ok (objInsert items (k.drop 1) (value.getD JValue.jnull), value, none)
      | some d0 =>
        match coerceObjScalar (charAt k 0) (trimTrailing d0) ln with
        | Except.error e => Except.error e
        | Except.ok v' =>
            Except.ok (objInsert items (k.drop 1) (v'.getD JValue.jnull), v', none)

-- Finalization of pending data / value in parse_array  [src/ld2json.c:205-251].
-- A data buffer with a NULL key dereferences the null pointer in C
-- (`key[0]`): modelled as the nullKeyCrash diagnostic.
def finArr (items : List JValue) (value : Option JValue)
    (key : Option LC) (data : Option LC) (ln : Nat) :
    Except Diag (List JValue × Option JValue) :=
  match data with
  | some d0 =>
    match key with
    | none => Except.error (Diag.nullKeyCrash ln)
    | some k =>
      if charAt k 0 = '*' then Except.ok (items, value)
      else
        match coerceArrScalar (charAt k 0) (trimTrailing d0) ln with
        | Except.error e => Except.error e
        | Except.ok v' => Except.ok (items ++ [v'.getD JValue.jnull], v')
  | none =>
    match value with
    | some v => Except.ok (items ++ [v], none)
    | none => Except.ok (items, none)

-- One combined function for the mutually recursive parse_object
-- [src/ld2json.c:292-416] and parse_array [src/ld2json.c:184-290] loops.
def parseGo : Nat → Frame → St → PRes
  | 0, _, st => ⟨none, st, [Diag.outOfFuel]⟩
  | Nat.succ f, fr, st =>
    match get_line st with
    | none =>
      match fr with
      | Frame.fobj _ _ _ _ _ => ⟨none, st, [Diag.unexpectedEOF st.ln]⟩
      | Frame.farr items _ _ _ _ => ⟨some (JValue.jarr items), st, []⟩
    | some (line, st') =>
      let lp := dropSpaces line
      match fr with
      | Frame.fobj items value key data indent =>
        if lp.take 2 = ['~', '~'] ∧ charAt lp 3 ≠ '\\' then
          let ind2 := countSpaces line
          match finObj items value key data st'.ln with
          | Except.error e => ⟨none, st', [e]⟩
          | Except.ok (items2, value2, data2) =>
            let key2 := get_key line
            if charAt lp 3 = lbrace then
              let r := parseGo f (Frame.fobj [] none none none 0) st'
              let r2 := parseGo f (Frame.fobj items2 r.val key2 data2 ind2) r.st
              ⟨r2.val, r2.st, r.errs ++ r2.errs⟩
            else if charAt lp 3 = '[' then
              let r := parseGo f (Frame.farr [] none none none 0) st'
              let r2 := parseGo f (Frame.fobj items2 r.val key2 data2 ind2) r.st
              ⟨r2.val, r2.st, r.errs ++ r2.errs⟩
            else if charAt lp 3 = rbrace then
              ⟨some (JValue.jobj items2), st', []⟩
            else parseGo f (Frame.fobj items2 value2 key2 data2 ind2) st'
        else if is_blank line then
          parseGo f (Frame.fobj items value key data indent) st'
        else
          parseGo f (Frame.fobj items value key
            (some (data.getD [] ++ dataText line indent)) indent) st'
      | Frame.farr items value key data indent =>
        if lp.take 2 = ['~', '~'] ∧ charAt lp 3 ≠ '\\' then
          let ind2 := indent + countSpaces line
          match finArr items value key data st'.ln with
          | Except.error e => ⟨none, st', [e]⟩
          | Except.ok (items2, value2) =>
            if charAt lp 3 = lbrace then
              let r := parseGo f (Frame.fobj [] none none none 0) st'
              -- key = get_key(line) runs AFTER the nested parse in
              -- parse_array, and `line` is get_line's static buffer: it
              -- then holds the last line the nested parser read.
              let r2 := parseGo f (Frame.farr items2 r.val (get_key r.st.buf) none ind2) r.st
              ⟨r2.val, r2.st, r.errs ++ r2.errs⟩
            else if charAt lp 3 = '[' then
              let r := parseGo f (Frame.farr [] none none none 0) st'
              let r2 := parseGo f (Frame.farr items2 r.val (get_key r.st.buf) none ind2) r.st
              ⟨r2.val, r2.st, r.errs ++ r2.errs⟩
            else if charAt lp 3 = ']' then
              ⟨some (JValue.jarr items2), st', []⟩
            else parseGo f (Frame.farr items2 value2 (get_key line) none ind2) st'
        else if is_blank line then
          parseGo f (Frame.farr items value key data indent) st'
        else
          parseGo f (Frame.farr items value key
            (some (data.getD [] ++ dataText line indent)) indent) st'

-- int main(...) of ld2json  [src/ld2json.c:59-94]: reads lines; a line
-- whose first two non-space characters are "~~" dispatches on the tag
-- character (no escape check here); '{' / '[' run a parser and print its
-- result if non-NULL; '*' enters comment mode; any other tag outside
-- comment mode is a fatal invalid-key-type error.  Returns the values
-- printed on stdout and the diagnostics printed on stderr.
def ldMainGo : Nat → St → Bool → List JValue × List Diag
  | 0, _, _ => ([], [Diag.outOfFuel])
  | Nat.succ f, st, inC =>
    match get_line st with
    | none => ([], [])
    | some (line, st') =>
      let lp := dropSpaces line
      if lp.take 2 = ['~', '~'] then
        if charAt lp 3 = lbrace then
          let r := parseGo f (Frame.fobj [] none none none 0) st'
          let rest := ldMainGo f r.st false
          ((match r.val with | some v => v :: rest.1 | none => rest.1),
           r.errs ++ rest.2)
        else if charAt lp 3 = '[' then
          let r := parseGo f (Frame.farr [] none none none 0) st'
          let rest := ldMainGo f r.st false
          ((match r.val with | some v => v :: rest.1 | none => rest.1),
           r.errs ++ rest.2)
        else if charAt lp 3 = '*' then ldMainGo f st' true
        else if inC then ldMainGo f st' inC
        else ([], [Diag.invalidKeyType lp st'.ln])
      else ldMainGo f st' inC

-- Running ld2json on a whole input (fuel = number of lines + 1 suffices:
-- every parser loop iteration consumes one line).
def ldJson (lines : List LC) : List JValue × List Diag :=
  ldMainGo (lines.length + 1) ⟨lines, 0, []⟩ false

/-
===========================  src/json2ld.c  ===========================
-/

-- printf("%*s", n, " "): the string " " padded to a minimum field width of
-- n.  Note that for n = 0 this still prints one space (the source of the
-- leading space on depth-0 lines of the encoder's output).
def padIndent (n : Nat) : LC := List.replicate (max n 1) ' '

-- printf("%lf", d): fixed notation with 6 decimal places.  The value is
-- modelled as an exact rational; rounding to 6 places is exact at every
-- value the theorems evaluate, so the choice of tie-breaking is irrelevant.
def printDouble (q : ℚ) : LC :=
  let sgn : LC := if q < 0 then ['-'] else []
  let scaled : Nat := (Int.floor (|q| * 1000000 + 1 / 2)).toNat
  sgn ++ natToLC (scaled / 1000000) ++ '.' ::
    (List.replicate (6 - (natToLC (scaled % 1000000)).length) '0' ++
      natToLC (scaled % 1000000))

-- static char *wrap(const char *s, int width, int indent)
-- [src/json2ld.c:159-211].
--
-- The backward whitespace scan: `e = s + ll - 1; while (e > s &&
-- !isspace(*e)) e--; if (e == s) e = s + ll;`.  It yields the largest
-- index k in [1, ll-1] holding an isspace character (a whitespace at
-- index 0 does not count: the loop stops there with e == s, and the
-- no-whitespace fallback fires), or ll when there is none.
def biAux (rem : LC) : Nat → Option Nat
  | 0 => none
  | Nat.succ k =>
      if isSpaceC (charAt rem (Nat.succ k)) then some (Nat.succ k)
      else biAux rem k

def breakIndex (rem : LC) (ll : Nat) : Nat :=
  match biAux rem (ll - 1) with
  | some k => k
  | none => ll

-- The chunk copy loop `for (int j = 0; j < l; j++)` with the newline
-- escape that also decrements l (`*p++='\\'; *p++='n'; l--;`), so each
-- escaped newline makes the loop stop one source character earlier.
-- Returns the characters written and the final value of l.  Fuel l is
-- enough: when it runs out, j ≥ l holds as well and the results coincide.
def ccAux (rem : LC) : Nat → Nat → Nat → LC × Nat
  | 0, _, l => ([], l)
  | Nat.succ f, j, l =>
      if j < l then
        if charAt rem j = '\n' then
          let p := ccAux rem f (j + 1) (l - 1)
          ('\\' :: 'n' :: p.1, p.2)
        else
          let p := ccAux rem f (j + 1) l
          (charAt rem j :: p.1, p.2)
      else ([], l)

def copyChunk (rem : LC) (l : Nat) : LC × Nat := ccAux rem l 0 l

-- The wrap loop.  `rem` is the unread tail of the source string; `rl` is
-- the C `rl` counter (it equals rem.length as long as no newline has been
-- escaped; each escaped newline leaves it one higher than the true
-- remaining length).  Returns the chunk bodies written between the '\n'
-- separators; each output line is the body prefixed by `indent` spaces
-- (the buffer is memset to ' ' and `p += indent` skips over them).  The
-- check `if (*s == '\0') break` is the charAt test against '\x00'.  In
-- that early-exit path the C code never writes a terminating NUL into the
-- buffer (a latent bug); the model returns the lines actually written.
-- One fuel unit per produced line, so `length + 2` fuel suffices.
def wgAux (ll : Nat) : Nat → LC → Nat → List LC
  | 0, _, _ => []
  | Nat.succ f, rem, rl =>
      if rl ≤ ll then [rem]
      else
        let e := breakIndex rem ll
        let p := copyChunk rem (e + 1)
        if charAt rem (e + 1) = '\x00' then [p.1]
        else p.1 :: wgAux ll f (rem.drop (e + 1)) (rl - p.2)

def wrap (s : LC) (width indent : Nat) : Option (List LC) :=
  if width ≤ indent then none
  else
    some ((wgAux (width - indent) (s.length + 2) s s.length).map
            (fun body => List.replicate indent ' ' ++ body))

-- Size of a JSON value, used only to supply enough fuel to the encoder.
mutual
def jsize : JValue → Nat
  | JValue.jnull => 1
  | JValue.jbool _ => 1
  | JValue.jint _ => 1
  | JValue.jfloat _ => 1
  | JValue.jstr _ => 1
  | JValue.jarr xs => 1 + jsizeL xs
  | JValue.jobj ms => 1 + jsizeM ms
def jsizeL : List JValue → Nat
  | [] => 0
  | x :: r => jsize x + jsizeL r
def jsizeM : List (LC × JValue) → Nat
  | [] => 0
  | m :: r => jsize m.2 + jsizeM r
end

-- static void output_ld(const char *key, json_object *obj)
-- [src/json2ld.c:102-157], returning the printed lines.  Booleans are
-- emitted with the key_number tag '#' (line 123 of the source).  Fuel is
-- one unit per nesting level; `json2ld` below supplies jsize v, which
-- always suffices.
def encVF : Nat → LC → Nat → JValue → List LC
  | 0, _, _, _ => []
  | Nat.succ f, key, ind, v =>
    match v with
    | JValue.jarr xs =>
        (padIndent ind ++ toL "~~:[" ++ key) ::
          (xs.map (fun x => encVF f [] (ind + 4) x)).flatten ++
          [padIndent ind ++ toL "~~:]"]
    | JValue.jbool b =>
        [padIndent ind ++ toL "~~:#" ++ key,
         padIndent ind ++ (if b then toL "true" else toL "false")]
    | JValue.jfloat q =>
        [padIndent ind ++ toL "~~:#" ++ key, padIndent ind ++ printDouble q]
    | JValue.jint n =>
        [padIndent ind ++ toL "~~:#" ++ key, padIndent ind ++ intToLC n]
    | JValue.jnull =>
        [padIndent ind ++ toL "~~:!" ++ key, padIndent ind ++ toL "null"]
    | JValue.jobj ms =>
        (padIndent ind ++ toL "~~:\x7b" ++ key) ::
          (ms.map (fun m => encVF f m.1 (ind + 4) m.2)).flatten ++
          [padIndent ind ++ toL "~~:\x7d"]
    | JValue.jstr s =>
        match wrap s 80 ind with
        | some ls => (padIndent ind ++ toL "~~:$" ++ key) :: ls
        | none => [padIndent ind ++ toL "~~:$" ++ key, []]

-- json2ld's main loop calls output_ld(empty_string, json_obj) for each
-- parsed JSON value, at indent 0 (wrap_len = 80, indent_step = 4).
def json2ld (v : JValue) : List LC := encVF (jsize v) [] 0 v

/-
====================  Declarative (spec-side) predicates  ====================
-/

-- The numeric grammar exactly as the specification states it  [spec.md
-- §4.2]: applied to the trimmed text; non-empty; a single-character text
-- is a digit; first character is a digit, '+', '-' or '.'; every
-- character is a digit, '.', '+', '-' or 'e'; at most one '.'-or-'e'
-- marker overall; every '.' immediately followed by a digit; every 'e'
-- immediately preceded by a digit.
def specNumGrammarCore (t : LC) : Prop :=
  t ≠ [] ∧
  (t.length = 1 → isDigitC (charAt t 0)) ∧
  (isDigitC (charAt t 0) ∨ charAt t 0 = '+' ∨ charAt t 0 = '-' ∨ charAt t 0 = '.') ∧
  (∀ i, i < t.length →
    (isDigitC (charAt t i) ∨ charAt t i = '.' ∨ charAt t i = '+' ∨
     charAt t i = '-' ∨ charAt t i = 'e')) ∧
  (t.filter (fun c => c = '.' ∨ c = 'e')).length ≤ 1 ∧
  (∀ i, i < t.length → charAt t i = '.' → isDigitC (charAt t (i + 1))) ∧
  (∀ i, i < t.length → charAt t i = 'e' → 0 < i ∧ isDigitC (charAt t (i - 1)))

def specNumGrammar (s : LC) : Prop := specNumGrammarCore (trimSpacesBoth s)

instance (t : LC) : Decidable (specNumGrammarCore t) := by
  unfold specNumGrammarCore; infer_instance

instance (s : LC) : Decidable (specNumGrammar s) := by
  unfold specNumGrammar; infer_instance

-- The grammar the code actually decides: identical to specNumGrammar
-- except for the marker rule, which only forbids a '.' that comes after
-- an 'e' (multiple dots, multiple e's, and a dot before an e are allowed).
def codeNumGrammarCore (t : LC) : Prop :=
  t ≠ [] ∧
  (t.length = 1 → isDigitC (charAt t 0)) ∧
  (isDigitC (charAt t 0) ∨ charAt t 0 = '+' ∨ charAt t 0 = '-' ∨ charAt t 0 = '.') ∧
  (∀ i, i < t.length →
    (isDigitC (charAt t i) ∨ charAt t i = '.' ∨ charAt t i = '+' ∨
     charAt t i = '-' ∨ charAt t i = 'e')) ∧
  (∀ i, i < t.length → charAt t i = '.' →
    (∀ j, j < i → charAt t j ≠ 'e') ∧ isDigitC (charAt t (i + 1))) ∧
  (∀ i, i < t.length → charAt t i = 'e' → 0 < i ∧ isDigitC (charAt t (i - 1)))

def codeNumGrammar (s : LC) : Prop := codeNumGrammarCore (trimSpacesBoth s)

instance (t : LC) : Decidable (codeNumGrammarCore t) := by
  unfold codeNumGrammarCore; infer_instance

instance (s : LC) : Decidable (codeNumGrammar s) := by
  unfold codeNumGrammar; infer_instance

-- Loop invariant of vnLoop, stated declaratively: what the remaining
-- characters must satisfy, given the dot_or_e flag and the previous
-- character.  (Instantiated with flag = false, prev = none it reduces to
-- the codeNumGrammar conditions.)
def vnGood (cs : LC) (flag : Bool) (prev : Option Char) : Prop :=
  (∀ i, i < cs.length →
    (charAt cs i = 'e' ∨ charAt cs i = '.' ∨ charAt cs i = '+' ∨
     charAt cs i = '-' ∨ isDigitC (charAt cs i))) ∧
  (∀ i, i < cs.length → charAt cs i = '.' →
    (flag = false ∧ ∀ j, j < i → charAt cs j ≠ 'e') ∧
    isDigitC (charAt cs (i + 1))) ∧
  (∀ i, i < cs.length → charAt cs i = 'e' →
    isDigitC (if i = 0 then prev.getD '\x00' else charAt cs (i - 1)))

-- What is_real actually detects, stated declaratively: some '.' is
-- followed, strictly later in the text, by a digit 1-9.
def hasRealMark (s : LC) : Prop :=
  ∃ j, j < s.length ∧ ('0' < charAt s j ∧ isDigitC (charAt s j)) ∧
    ∃ i, i < j ∧ charAt s i = '.'

instance (s : LC) : Decidable (hasRealMark s) := by
  unfold hasRealMark
  have : ∀ j, Decidable (j < s.length ∧ ('0' < charAt s j ∧ isDigitC (charAt s j)) ∧
      ∃ i, i < j ∧ charAt s i = '.') := by
    intro j
    have : Decidable (∃ i, i < j ∧ charAt s i = '.') := by
      have := Nat.decidableBallLT j (fun i _ => charAt s i ≠ '.')
      refine decidable_of_iff (¬ ∀ i, i < j → charAt s i ≠ '.') ?_
      push_neg
      exact Iff.rfl
    infer_instance
  exact decidable_of_iff (∃ j, j < s.length ∧ (('0' < charAt s j ∧ isDigitC (charAt s j)) ∧
      ∃ i, i < j ∧ charAt s i = '.'))
    (by constructor
        · rintro ⟨j, h1, h2, h3⟩; exact ⟨j, h1, h2, h3⟩
        · rintro ⟨j, h1, h2, h3⟩; exact ⟨j, h1, h2, h3⟩)

-- A line that the parsers treat as data: after skipping leading spaces it
-- does not start with the two-character prefix "~~" (blank lines qualify).
def isDataish (l : LC) : Prop := (dropSpaces (stripNL l)).take 2 ≠ ['~', '~']

instance (l : LC) : Decidable (isDataish l) := by
  unfold isDataish; infer_instance

-- The LD text of the specification's end-to-end example  [spec.md §8].
def specExampleLD : List LC :=
  [toL "~~:\x7b", toL "    ~~:#a", toL "    1", toL "    ~~:[b",
   toL "        ~~:?", toL "        true", toL "        ~~:!",
   toL "        null", toL "    ~~:]", toL "~~:\x7d"]

-- The JSON value {"a":1,"b":[true,null]} of that example.
def specExampleJSON : JValue :=
  JValue.jobj [(['a'], JValue.jint 1),
               (['b'], JValue.jarr [JValue.jbool true, JValue.jnull])]

/-
===============================  Theorems  ===============================
-/

/-- C1: the round-trip property fails on the code.  Encoding the object
\x7b"a":true\x7d emits the boolean member under the number tag '#' with data
line `true`; decoding that very output fails with an invalid-number
diagnostic on line 4 instead of returning the original value.  (The claim
states decode(encode(v)) = v for every supported value.) -/
theorem c1_roundtrip_bool_fails :
    json2ld (JValue.jobj [(['a'], JValue.jbool true)]) =
      [toL " ~~:\x7b", toL "    ~~:#a", toL "    true", toL " ~~:\x7d"] ∧
    ldJson (json2ld (JValue.jobj [(['a'], JValue.jbool true)])) =
      ([], [Diag.invalidNumber (toL "true") 4]) := by
  exact ⟨rfl, rfl⟩

/-- C2: decoding the specification's end-to-end example text does
reproduce \x7b"a":1,"b":[true,null]\x7d, but encoding that value does not
produce the example text: the depth-0 sentinel lines carry a leading
space (printf("%*s", 0, " ") still prints one space) and the boolean
element is emitted with the '#' tag, not the '?' tag. -/
theorem c2_example_encode_mismatch :
    ldJson specExampleLD = ([specExampleJSON], []) ∧
    json2ld specExampleJSON =
      [toL " ~~:\x7b", toL "    ~~:#a", toL "    1", toL "    ~~:[b",
       toL "        ~~:#", toL "        true", toL "        ~~:!",
       toL "        null", toL "    ~~:]", toL " ~~:\x7d"] ∧
    json2ld specExampleJSON ≠ specExampleLD := by
  refine ⟨rfl, rfl, ?_⟩
  decide

/-- C3 counterexample: "1e5" passes valid_number and contains an exponent
marker, yet the object-context coercer produces the integer 1 (strtol
stops at the 'e'), not a floating value; and in array context the text
"42", with no decimal point or exponent, produces the floating value 42.0
(json_object_new_double(atof(..))), not an integer. -/
theorem c3_counterexample :
    valid_number (toL "1e5") = true ∧ 'e' ∈ toL "1e5" ∧
    coerceObjScalar '#' (toL "1e5") 7 = Except.ok (some (JValue.jint 1)) ∧
    valid_number (toL "42") = true ∧ '.' ∉ toL "42" ∧ 'e' ∉ toL "42" ∧
    coerceArrScalar '#' (toL "42") 9 =
      Except.ok (some (JValue.jfloat (strtodQ (toL "42")))) ∧
    strtodQ (toL "42") = 42 := by
  refine ⟨rfl, by decide, rfl, rfl, by decide, by decide, rfl, ?_⟩
  have h : strtodQ (toL "42") =
      (1 : ℚ) * ((natOfDigits (toL "42") : ℕ) : ℚ) / ((10 : ℚ) ^ (0 : ℕ)) *
        ((10 : ℚ) ^ ((0 : ℕ) : ℤ)) := rfl
  rw [h, show (natOfDigits (toL "42")) = 42 from rfl]
  norm_num

/-- C4 counterexample: "1.2.3" contains two '.' markers, so the
specification's grammar (at most one '.'-or-'e' marker overall) rejects
it, yet valid_number accepts it (the dot_or_e flag is only ever set by an
'e'). -/
theorem c4_counterexample :
    valid_number (toL "1.2.3") = true ∧ ¬ specNumGrammar (toL "1.2.3") := by
  exact ⟨rfl, by decide⟩

/-- C5 counterexample: an opening array sentinel followed by end of input
decodes without any diagnostic to the empty array (parse_array returns
its partial value at EOF), contradicting the claim that open arrays fail
with an unexpected-EOF diagnostic. -/
theorem c5_counterexample :
    ldJson [toL "~~:["] = ([JValue.jarr []], []) := rfl

/-- C6 counterexample: `~~:?flag` with data line `maybe` (line 3 of the
document) does fail with an invalid-boolean diagnostic, but the cited
line number is 4 — the closing sentinel that terminated the data — not
the line number of the offending data. -/
theorem c6_counterexample :
    ldJson [toL "~~:\x7b", toL "    ~~:?flag", toL "    maybe", toL "~~:\x7d"] =
      ([], [Diag.invalidBoolean (toL "maybe") 4]) ∧
    List.getD [toL "~~:\x7b", toL "    ~~:?flag", toL "    maybe", toL "~~:\x7d"]
      2 [] = toL "    maybe" := by
  exact ⟨rfl, rfl⟩

/-- C7 counterexample: a comment sentinel with empty key text (`~~:*`)
inside an object hits the anonymous-value check (which runs before the
comment check), so decoding raises an error and the sibling key `a` is
never decoded, contradicting "decoding never raises an error ... and all
sibling keys with valid data still decode successfully". -/
theorem c7_counterexample :
    ldJson [toL "~~:\x7b", toL "~~:*", toL "junk", toL "~~:#a", toL "1",
            toL "~~:\x7d"] =
      ([], [Diag.anonymousValue 4, Diag.invalidKeyType (toL "~~:\x7d") 6]) := rfl

/-- C8: the encoder never writes the escape marker (key_escape is unused
in json2ld.c): the string value "~~:$x" under key k is emitted as the
raw data line `~~:$x`, which the decoder takes for a '$' sentinel, so the
round trip yields \x7b"k":null,"x":null\x7d instead of the original object.  The
decoder's escape-stripping half does work: the hand-escaped data line
`~~:\$x` decodes back to the string "~~:$x". -/
theorem c8_escape_encoder_missing :
    json2ld (JValue.jobj [(['k'], JValue.jstr (toL "~~:$x"))]) =
      [toL " ~~:\x7b", toL "    ~~:$k", toL "    ~~:$x", toL " ~~:\x7d"] ∧
    ldJson (json2ld (JValue.jobj [(['k'], JValue.jstr (toL "~~:$x"))])) =
      ([JValue.jobj [(['k'], JValue.jnull), (['x'], JValue.jnull)]], []) ∧
    ldJson [toL "~~:\x7b", toL "~~:$k", toL "~~:\\$x", toL "~~:\x7d"] =
      ([JValue.jobj [(['k'], JValue.jstr (toL "~~:$x"))]], []) := by
  exact ⟨rfl, rfl, rfl⟩

/-- C9 counterexample: with width 8 and indent 0, wrapping ten 'a's (no
whitespace in the window) produces a first line of nine characters —
exceeding the width — and wrapping "a\nbcdef gh" both rewrites the
newline and silently drops the space at the break (the l-- in the copy
loop shortens the chunk), so the characters of the source are not all
preserved. -/
theorem c9_counterexample :
    wrap (toL "aaaaaaaaaa") 8 0 = some [toL "aaaaaaaaa", toL "a"] ∧
    (toL "aaaaaaaaa").length = 9 ∧
    wrap (toL "a\nbcdef gh") 8 0 = some [toL "a\\nbcdef", toL "gh"] ∧
    ' ' ∈ toL "a\nbcdef gh" ∧ ' ' ∉ toL "a\\nbcdef" ++ toL "gh" := by
  exact ⟨rfl, rfl, rfl, by decide, by decide⟩

/-- C10 counterexample: in \x7b after `~~:#a` / `1`, the member `~~:$b` has
zero data lines; the parser inserts b, but with the *stale* value
register (the Int 1 just produced for a, never reset after insertion),
not with a null, even though no nested value is pending. -/
theorem c10_counterexample :
    ldJson [toL "~~:\x7b", toL "~~:#a", toL "1", toL "~~:$b", toL "~~:\x7d"] =
      ([JValue.jobj [(['a'], JValue.jint 1), (['b'], JValue.jint 1)]], []) := rfl

/-- C10 (amended): an object member whose scalar sentinel ('$', '#', '?',
'!') has zero data lines raises no error and inserts the key; when no
value has been produced yet in the object the value register is still
NULL, so the member gets a JSON null (the coercion switch is skipped
entirely when data is NULL). -/
theorem c10_amended :
    ∀ t : Char, t = '$' ∨ t = '#' ∨ t = '?' ∨ t = '!' →
      ldJson [toL "~~:\x7b", '~' :: '~' :: ':' :: t :: ['b'], toL "~~:\x7d"] =
        ([JValue.jobj [(['b'], JValue.jnull)]], []) := by
  intro t h
  rcases h with h | h | h | h <;> subst h <;> rfl

/-- C10 witness: the '$' instance of the amended claim. -/
theorem c10_witness :
    ldJson [toL "~~:\x7b", '~' :: '~' :: ':' :: '$' :: ['b'], toL "~~:\x7d"] =
      ([JValue.jobj [(['b'], JValue.jnull)]], []) :=
  c10_amended '$' (Or.inl rfl)

/-- C6 (amended): with accumulated data, a '?'-tagged value coerces to the
boolean given by a case-insensitive comparison with "true"/"false" (in
both object and array context), and any other data fails with an
invalid-boolean diagnostic carrying the line number in effect at
finalization — which is the line of the sentinel that terminated the
data, as the end-to-end instance shows: the bad data on line 3 is
reported on line 4. -/
theorem c6_amended :
    (∀ d ln,
      (lowerEq d (toL "true") = true ∨ lowerEq d (toL "false") = true →
        coerceObjScalar '?' d ln =
          Except.ok (some (JValue.jbool (lowerEq d (toL "true")))) ∧
        coerceArrScalar '?' d ln =
          Except.ok (some (JValue.jbool (lowerEq d (toL "true"))))) ∧
      (lowerEq d (toL "true") = false → lowerEq d (toL "false") = false →
        coerceObjScalar '?' d ln = Except.error (Diag.invalidBoolean d ln) ∧
        coerceArrScalar '?' d ln = Except.error (Diag.invalidBoolean d ln))) ∧
    ldJson [toL "~~:\x7b", toL "    ~~:?flag", toL "    maybe", toL "~~:\x7d"] =
      ([], [Diag.invalidBoolean (toL "maybe") 4]) := by
  refine ⟨fun d ln => ⟨fun h => ?_, fun h1 h2 => ?_⟩, rfl⟩
  · have hc : ¬(¬ lowerEq d (toL "true") = true ∧ ¬ lowerEq d (toL "false") = true) := by
      rcases h with h | h <;> simp [h]
    constructor
    · show (if ¬ lowerEq d (toL "true") = true ∧ ¬ lowerEq d (toL "false") = true
          then Except.error (Diag.invalidBoolean d ln)
          else Except.ok (some (JValue.jbool (lowerEq d (toL "true"))))) = _
      rw [if_neg hc]
    · show (if ¬ lowerEq d (toL "true") = true ∧ ¬ lowerEq d (toL "false") = true
          then Except.error (Diag.invalidBoolean d ln)
          else Except.ok (some (JValue.jbool (lowerEq d (toL "true"))))) = _
      rw [if_neg hc]
  · constructor
    · show (if ¬ lowerEq d (toL "true") = true ∧ ¬ lowerEq d (toL "false") = true
          then Except.error (Diag.invalidBoolean d ln)
          else Except.ok (some (JValue.jbool (lowerEq d (toL "true"))))) = _
      rw [if_pos ⟨by simp [h1], by simp [h2]⟩]
    · show (if ¬ lowerEq d (toL "true") = true ∧ ¬ lowerEq d (toL "false") = true
          then Except.error (Diag.invalidBoolean d ln)
          else Except.ok (some (JValue.jbool (lowerEq d (toL "true"))))) = _
      rw [if_pos ⟨by simp [h1], by simp [h2]⟩]

/-- C6 witness: the amended coercer facts at the concrete data "TRUE"
(case-insensitive match) and "maybe" (failure). -/
theorem c6_witness :
    coerceObjScalar '?' (toL "TRUE") 5 =
      Except.ok (some (JValue.jbool (lowerEq (toL "TRUE") (toL "true")))) ∧
    coerceObjScalar '?' (toL "maybe") 9 =
      Except.error (Diag.invalidBoolean (toL "maybe") 9) := by
  constructor
  · exact ((c6_amended.1 (toL "TRUE") 5).1 (Or.inl (by decide))).1
  · exact ((c6_amended.1 (toL "maybe") 9).2 (by decide) (by decide)).1

theorem charAt_cons_zero (c : Char) (l : LC) : charAt (c :: l) 0 = c := rfl

theorem charAt_cons_succ (c : Char) (l : LC) (i : Nat) :
    charAt (c :: l) (i + 1) = charAt l i := rfl

-- The is_real loop detects exactly: some digit 1-9 occurring strictly
-- after a '.' (or anywhere at all once the flag is already set).
theorem irLoop_iff (cs : LC) : ∀ hd : Bool, irLoop hd cs = true ↔
    ∃ j, j < cs.length ∧ ('0' < charAt cs j ∧ isDigitC (charAt cs j)) ∧
      (hd = true ∨ ∃ i, i < j ∧ charAt cs i = '.') := by
  induction cs with
  | nil => intro hd; simp [irLoop]
  | cons c cs ih =>
    intro hd
    by_cases hc : c = '.'
    · subst hc
      have hstep : irLoop hd ('.' :: cs) = irLoop true cs := by simp [irLoop]
      rw [hstep, ih true]
      constructor
      · rintro ⟨j, hj, h19, -⟩
        refine ⟨j + 1, by simpa using Nat.succ_lt_succ hj, ?_, ?_⟩
        · rw [charAt_cons_succ]; exact h19
        · exact Or.inr ⟨0, Nat.succ_pos j, rfl⟩
      · rintro ⟨j, hj, h19, -⟩
        match j, hj with
        | 0, _ =>
          rw [charAt_cons_zero] at h19
          exact absurd h19.2 (by decide)
        | j + 1, hj =>
          rw [charAt_cons_succ] at h19
          exact ⟨j, by simp only [List.length_cons] at hj; omega, h19, Or.inl rfl⟩
    · by_cases hdig : hd = true ∧ isDigitC c = true ∧ '0' < c
      · have hstep : irLoop hd (c :: cs) = true := by
          unfold irLoop
          rw [if_neg hc, if_pos ⟨hdig.1, hdig.2.1, hdig.2.2⟩]
        rw [hstep]
        constructor
        · intro _
          exact ⟨0, Nat.succ_pos _, ⟨hdig.2.2, hdig.2.1⟩, Or.inl hdig.1⟩
        · intro _; rfl
      · have hstep : irLoop hd (c :: cs) = irLoop hd cs := by
          simp only [irLoop]
          rw [if_neg hc, if_neg (by
            intro hcon
            exact hdig ⟨hcon.1, hcon.2.1, hcon.2.2⟩)]
        rw [hstep, ih hd]
        constructor
        · rintro ⟨j, hj, h19, hdisj⟩
          refine ⟨j + 1, by simpa using Nat.succ_lt_succ hj,
            by rw [charAt_cons_succ]; exact h19, ?_⟩
          rcases hdisj with h | ⟨i, hi, hdot⟩
          · exact Or.inl h
          · exact Or.inr ⟨i + 1, by omega, by rw [charAt_cons_succ]; exact hdot⟩
        · rintro ⟨j, hj, h19, hdisj⟩
          match j, hj with
          | 0, _ =>
            rw [charAt_cons_zero] at h19
            rcases hdisj with h | ⟨i, hi, -⟩
            · exact absurd ⟨h, h19.2, h19.1⟩ hdig
            · omega
          | j + 1, hj =>
            rw [charAt_cons_succ] at h19
            refine ⟨j, by simp only [List.length_cons] at hj; omega, h19, ?_⟩
            rcases hdisj with h | ⟨i, hi, hdot⟩
            · exact Or.inl h
            · match i, hi, hdot with
              | 0, _, hdot => exact absurd hdot hc
              | i + 1, hi, hdot =>
                rw [charAt_cons_succ] at hdot
                exact Or.inr ⟨i, by omega, hdot⟩

theorem is_real_iff (s : LC) : is_real s = true ↔ hasRealMark s := by
  unfold is_real hasRealMark
  rw [irLoop_iff]
  simp

theorem strtodQ_35 : strtodQ (toL "3.500000") = 7 / 2 := by
  have h : strtodQ (toL "3.500000") =
      (1 : ℚ) * ((natOfDigits (toL "3500000") : ℕ) : ℚ) / ((10 : ℚ) ^ (6 : ℕ)) *
        ((10 : ℚ) ^ ((0 : ℕ) : ℤ)) := rfl
  rw [h, show (natOfDigits (toL "3500000")) = 3500000 from rfl]
  norm_num

theorem printDouble_35 : printDouble (7 / 2) = toL "3.500000" := by
  have habs : |(7 / 2 : ℚ)| = 7 / 2 := abs_of_nonneg (by norm_num)
  have hfl : Int.floor ((7 / 2 : ℚ) * 1000000 + 1 / 2) = 3500000 := by
    rw [Int.floor_eq_iff]
    constructor <;> norm_num
  unfold printDouble
  rw [if_neg (by norm_num), habs, hfl]
  rfl

/-- C3 (amended): for data passing valid_number, the object-context '#'
coercer yields the integer strtol value exactly when the text has no '.'
followed later by a digit 1-9 (is_real), and the float strtod value
otherwise; the array-context coercer always yields the float atof value.
In particular Int(42) and Float(3.5) survive an encode/decode round trip
as object members with their integer/float identity intact. -/
theorem c3_amended :
    (∀ d ln, valid_number d = true →
      ((¬ hasRealMark d →
          coerceObjScalar '#' d ln = Except.ok (some (JValue.jint (strtol10 d)))) ∧
       (hasRealMark d →
          coerceObjScalar '#' d ln = Except.ok (some (JValue.jfloat (strtodQ d)))) ∧
       coerceArrScalar '#' d ln = Except.ok (some (JValue.jfloat (strtodQ d))))) ∧
    ldJson (json2ld (JValue.jobj [(['a'], JValue.jint 42)])) =
      ([JValue.jobj [(['a'], JValue.jint 42)]], []) ∧
    ldJson (json2ld (JValue.jobj [(['a'], JValue.jfloat (7 / 2))])) =
      ([JValue.jobj [(['a'], JValue.jfloat (7 / 2))]], []) := by
  refine ⟨fun d ln hv => ⟨fun hnr => ?_, fun hr => ?_, ?_⟩, rfl, ?_⟩
  · have hir : is_real d = false := by
      cases hre : is_real d
      · rfl
      · exact absurd ((is_real_iff d).mp hre) hnr
    unfold coerceObjScalar
    rw [if_neg (by decide), if_neg (by decide), if_pos rfl,
      if_neg (show ¬¬ valid_number d = true by simp [hv]),
      if_neg (by simp [hir])]
  · unfold coerceObjScalar
    rw [if_neg (by decide), if_neg (by decide), if_pos rfl,
      if_neg (show ¬¬ valid_number d = true by simp [hv]),
      if_pos ((is_real_iff d).mpr hr)]
  · unfold coerceArrScalar
    rw [if_neg (by decide), if_neg (by decide), if_pos rfl,
      if_neg (show ¬¬ valid_number d = true by simp [hv])]
  · have henc : json2ld (JValue.jobj [(['a'], JValue.jfloat (7 / 2))]) =
        [toL " ~~:\x7b", toL "    ~~:#a", toL "    " ++ printDouble (7 / 2),
         toL " ~~:\x7d"] := rfl
    have henc2 : json2ld (JValue.jobj [(['a'], JValue.jfloat (7 / 2))]) =
        [toL " ~~:\x7b", toL "    ~~:#a", toL "    3.500000", toL " ~~:\x7d"] := by
      rw [henc, printDouble_35]; rfl
    have hdec : ldJson [toL " ~~:\x7b", toL "    ~~:#a", toL "    3.500000",
        toL " ~~:\x7d"] =
        ([JValue.jobj [(['a'], JValue.jfloat (strtodQ (toL "3.500000")))]], []) := rfl
    rw [henc2, hdec, strtodQ_35]

/-- C3 witness: the amended coercer statement applied at data "1e5"
(valid, no real mark: integer result) and "3.5" (valid, real mark: float
result). -/
theorem c3_witness :
    coerceObjScalar '#' (toL "1e5") 7 =
      Except.ok (some (JValue.jint (strtol10 (toL "1e5")))) ∧
    coerceObjScalar '#' (toL "3.5") 8 =
      Except.ok (some (JValue.jfloat (strtodQ (toL "3.5")))) := by
  constructor
  · exact (c3_amended.1 (toL "1e5") 7 (by decide)).1 (by decide)
  · exact (c3_amended.1 (toL "3.5") 8 (by decide)).2.1 (by decide)

-- parse_object and EOF: if every remaining line is a data line (no "~~"
-- prefix after leading spaces), the object parser consumes them all and
-- reports UnexpectedEOF with the final line number, whatever its
-- accumulated state.
theorem parseObjEOF :
    ∀ (ds : List LC) (f : Nat), ds.length ≤ f → (∀ d ∈ ds, isDataish d) →
      ∀ (ln : Nat) (buf : LC) items value key data indent,
        ∃ b, parseGo (f + 1) (Frame.fobj items value key data indent)
            ⟨ds, ln, buf⟩ =
          ⟨none, ⟨[], ln + ds.length, b⟩,
           [Diag.unexpectedEOF (ln + ds.length)]⟩ := by
  intro ds
  induction ds with
  | nil =>
    intro f _ _ ln buf items value key data indent
    exact ⟨buf, rfl⟩
  | cons d ds ih =>
    intro f hf hd ln buf items value key data indent
    match f, hf with
    | Nat.succ f, hf =>
      have hdd : isDataish d := hd d (by simp)
      have hrest : ∀ x ∈ ds, isDataish x := fun x hx => hd x (by simp [hx])
      have hlen : ds.length ≤ f := by
        simp only [List.length_cons] at hf; omega
      have harith : ln + (d :: ds).length = (ln + 1) + ds.length := by
        simp only [List.length_cons]; omega
      by_cases hbl : is_blank (stripNL d) = true
      · obtain ⟨b, hb⟩ := ih f hlen hrest (ln + 1) (stripNL d)
          items value key data indent
        refine ⟨b, ?_⟩
        rw [harith]
        simp only [parseGo, get_line]
        rw [if_neg (fun hcon => hdd hcon.1), if_pos hbl]
        exact hb
      · obtain ⟨b, hb⟩ := ih f hlen hrest (ln + 1) (stripNL d)
          items value key
          (some (data.getD [] ++
            (if (dropSpacesUpTo (stripNL d) indent).take 3 = ['~', '~', ':'] ∧
                charAt (dropSpacesUpTo (stripNL d) indent) 3 = '\\' then
              (dropSpacesUpTo (stripNL d) indent).take 3 ++
                (dropSpacesUpTo (stripNL d) indent).drop 4
            else dropSpacesUpTo (stripNL d) indent))) indent
        refine ⟨b, ?_⟩
        rw [harith]
        simp only [parseGo, get_line]
        rw [if_neg (fun hcon => hdd hcon.1), if_neg hbl]
        exact hb

-- parse_array and EOF: under the same conditions the array parser simply
-- returns its partial array, with no diagnostic at all.
theorem parseArrEOF :
    ∀ (ds : List LC) (f : Nat), ds.length ≤ f → (∀ d ∈ ds, isDataish d) →
      ∀ (ln : Nat) (buf : LC) items value key data indent,
        ∃ b, parseGo (f + 1) (Frame.farr items value key data indent)
            ⟨ds, ln, buf⟩ =
          ⟨some (JValue.jarr items), ⟨[], ln + ds.length, b⟩, []⟩ := by
  intro ds
  induction ds with
  | nil =>
    intro f _ _ ln buf items value key data indent
    exact ⟨buf, rfl⟩
  | cons d ds ih =>
    intro f hf hd ln buf items value key data indent
    match f, hf with
    | Nat.succ f, hf =>
      have hdd : isDataish d := hd d (by simp)
      have hrest : ∀ x ∈ ds, isDataish x := fun x hx => hd x (by simp [hx])
      have hlen : ds.length ≤ f := by
        simp only [List.length_cons] at hf; omega
      have harith : ln + (d :: ds).length = (ln + 1) + ds.length := by
        simp only [List.length_cons]; omega
      by_cases hbl : is_blank (stripNL d) = true
      · obtain ⟨b, hb⟩ := ih f hlen hrest (ln + 1) (stripNL d)
          items value key data indent
        refine ⟨b, ?_⟩
        rw [harith]
        simp only [parseGo, get_line]
        rw [if_neg (fun hcon => hdd hcon.1), if_pos hbl]
        exact hb
      · obtain ⟨b, hb⟩ := ih f hlen hrest (ln + 1) (stripNL d)
          items value key
          (some (data.getD [] ++
            (if (dropSpacesUpTo (stripNL d) indent).take 3 = ['~', '~', ':'] ∧
                charAt (dropSpacesUpTo (stripNL d) indent) 3 = '\\' then
              (dropSpacesUpTo (stripNL d) indent).take 3 ++
                (dropSpacesUpTo (stripNL d) indent).drop 4
            else dropSpacesUpTo (stripNL d) indent))) indent
        refine ⟨b, ?_⟩
        rw [harith]
        simp only [parseGo, get_line]
        rw [if_neg (fun hcon => hdd hcon.1), if_neg hbl]
        exact hb

/-- C5 (amended): an opening object sentinel followed only by data lines
up to end of input fails with the unexpected-EOF diagnostic carrying the
final line number; but an opening array sentinel in the same situation
does NOT fail — parse_array returns the partial (empty) array and the
driver prints it, with no diagnostic. -/
theorem c5_amended :
    (∀ ds : List LC, (∀ d ∈ ds, isDataish d) →
      ldJson (toL "~~:\x7b" :: ds) =
        ([], [Diag.unexpectedEOF (ds.length + 1)])) ∧
    (∀ ds : List LC, (∀ d ∈ ds, isDataish d) →
      ldJson (toL "~~:[" :: ds) = ([JValue.jarr []], [])) := by
  constructor
  · intro ds hd
    obtain ⟨b, hb⟩ := parseObjEOF ds ds.length (le_refl _) hd 1
      (toL "~~:\x7b") [] none none none 0
    show ldMainGo ((toL "~~:\x7b" :: ds).length + 1) ⟨toL "~~:\x7b" :: ds, 0, []⟩ false =
      ([], [Diag.unexpectedEOF (ds.length + 1)])
    simp only [List.length_cons]
    simp only [ldMainGo, get_line]
    rw [show stripNL (toL "~~:\x7b") = toL "~~:\x7b" from rfl]
    rw [if_pos (show (dropSpaces (toL "~~:\x7b")).take 2 = ['~', '~'] from rfl),
        if_pos (show charAt (dropSpaces (toL "~~:\x7b")) 3 = lbrace from rfl)]
    rw [hb]
    simp only [ldMainGo, get_line]
    rw [show (1 : Nat) + ds.length = ds.length + 1 by omega]
    simp
  · intro ds hd
    obtain ⟨b, hb⟩ := parseArrEOF ds ds.length (le_refl _) hd 1
      (toL "~~:[") [] none none none 0
    show ldMainGo ((toL "~~:[" :: ds).length + 1) ⟨toL "~~:[" :: ds, 0, []⟩ false =
      ([JValue.jarr []], [])
    simp only [List.length_cons]
    simp only [ldMainGo, get_line]
    rw [show stripNL (toL "~~:[") = toL "~~:[" from rfl]
    rw [if_pos (show (dropSpaces (toL "~~:[")).take 2 = ['~', '~'] from rfl),
        if_neg (show ¬ charAt (dropSpaces (toL "~~:[")) 3 = lbrace by decide),
        if_pos (show charAt (dropSpaces (toL "~~:[")) 3 = '[' from rfl)]
    rw [hb]
    simp only [ldMainGo, get_line]
    simp

/-- C5 witness: the amended statement at the one-data-line instances. -/
theorem c5_witness :
    ldJson [toL "~~:\x7b", toL "    x"] = ([], [Diag.unexpectedEOF 2]) ∧
    ldJson [toL "~~:[", toL "    x"] = ([JValue.jarr []], []) := by
  constructor
  · exact c5_amended.1 [toL "    x"] (by decide)
  · exact c5_amended.2 [toL "    x"] (by decide)

-- One data-line step of the object parser, for a line that is not a
-- sentinel: blank lines are skipped, others are appended to the data
-- register after indent-stripping and unescaping.
theorem parseGoDataStepObj (f : Nat) (d : LC) (rest : List LC) (ln : Nat)
    (buf : LC) (items : List (LC × JValue)) (value : Option JValue)
    (key : Option LC) (data : Option LC) (indent : Nat)
    (hd : isDataish d) :
    parseGo (f + 1) (Frame.fobj items value key data indent)
        ⟨d :: rest, ln, buf⟩ =
      if is_blank (stripNL d) then
        parseGo f (Frame.fobj items value key data indent)
          ⟨rest, ln + 1, stripNL d⟩
      else
        parseGo f (Frame.fobj items value key
          (some (data.getD [] ++ dataText (stripNL d) indent)) indent)
          ⟨rest, ln + 1, stripNL d⟩ := by
  simp only [parseGo, get_line]
  rw [if_neg (fun hcon => hd hcon.1)]

-- The same for the array parser.
theorem parseGoDataStepArr (f : Nat) (d : LC) (rest : List LC) (ln : Nat)
    (buf : LC) (items : List JValue) (value : Option JValue)
    (key : Option LC) (data : Option LC) (indent : Nat)
    (hd : isDataish d) :
    parseGo (f + 1) (Frame.farr items value key data indent)
        ⟨d :: rest, ln, buf⟩ =
      if is_blank (stripNL d) then
        parseGo f (Frame.farr items value key data indent)
          ⟨rest, ln + 1, stripNL d⟩
      else
        parseGo f (Frame.farr items value key
          (some (data.getD [] ++ dataText (stripNL d) indent)) indent)
          ⟨rest, ln + 1, stripNL d⟩ := by
  simp only [parseGo, get_line]
  rw [if_neg (fun hcon => hd hcon.1)]

-- After the comment key "*c" is pending, the finalization at the next
-- sentinel discards whatever data is pending without inspecting it, so
-- the rest of the parse is independent of the data register.
theorem c7objTail : ∀ (data0 : Option LC) (buf0 : LC),
    parseGo 4 (Frame.fobj [] none (some (toL "*c")) data0 0)
        ⟨[toL "~~:#a", toL "1", toL "~~:\x7d"], 3, buf0⟩ =
      ⟨some (JValue.jobj [(['a'], JValue.jint 1)]), ⟨[], 6, toL "~~:\x7d"⟩, []⟩ :=
  fun _ _ => rfl

theorem c7arrTailNone : ∀ (buf0 : LC),
    parseGo 4 (Frame.farr [] none (some (toL "*x")) none 0)
        ⟨[toL "~~:#", toL "1", toL "~~:]"], 3, buf0⟩ =
      ⟨some (JValue.jarr [JValue.jfloat (strtodQ (toL "1"))]),
       ⟨[], 6, toL "~~:]"⟩, []⟩ :=
  fun _ => rfl

theorem c7arrTailSome : ∀ (dx : LC) (buf0 : LC),
    parseGo 4 (Frame.farr [] none (some (toL "*x")) (some dx) 0)
        ⟨[toL "~~:#", toL "1", toL "~~:]"], 3, buf0⟩ =
      ⟨some (JValue.jarr [JValue.jfloat (strtodQ (toL "1"))]),
       ⟨[], 6, toL "~~:]"⟩, []⟩ :=
  fun _ _ => rfl

/-- C7 (amended): beneath a '*'-tagged comment key with non-empty key
text, any data line whatsoever (blank or arbitrary text that is not a
sentinel) is discarded without validation: the commented key is absent
from the result and the sibling members decode normally — in object
context (sibling a: 1) and in array context (sibling element 1, a float
there).  Also strtodQ "1" is the rational 1. -/
theorem c7_amended :
    (∀ d : LC, isDataish d →
      ldJson [toL "~~:\x7b", toL "~~:*c", d, toL "~~:#a", toL "1", toL "~~:\x7d"] =
        ([JValue.jobj [(['a'], JValue.jint 1)]], [])) ∧
    (∀ d : LC, isDataish d →
      ldJson [toL "~~:[", toL "~~:*x", d, toL "~~:#", toL "1", toL "~~:]"] =
        ([JValue.jarr [JValue.jfloat (strtodQ (toL "1"))]], [])) ∧
    strtodQ (toL "1") = 1 := by
  refine ⟨fun d hd => ?_, fun d hd => ?_, ?_⟩
  · have h2 : parseGo 6 (Frame.fobj [] none none none 0)
        ⟨[toL "~~:*c", d, toL "~~:#a", toL "1", toL "~~:\x7d"], 1, toL "~~:\x7b"⟩ =
        ⟨some (JValue.jobj [(['a'], JValue.jint 1)]), ⟨[], 6, toL "~~:\x7d"⟩, []⟩ := by
      have hstep1 : parseGo 6 (Frame.fobj [] none none none 0)
          ⟨[toL "~~:*c", d, toL "~~:#a", toL "1", toL "~~:\x7d"], 1, toL "~~:\x7b"⟩ =
          parseGo 5 (Frame.fobj [] none (some (toL "*c")) none 0)
            ⟨[d, toL "~~:#a", toL "1", toL "~~:\x7d"], 2, toL "~~:*c"⟩ := rfl
      rw [hstep1, parseGoDataStepObj 4 d _ 2 _ _ _ _ _ _ hd]
      by_cases hbl : is_blank (stripNL d) = true
      · rw [if_pos hbl]; exact c7objTail _ _
      · rw [if_neg hbl]; exact c7objTail _ _
    have hmain : ldJson [toL "~~:\x7b", toL "~~:*c", d, toL "~~:#a", toL "1",
        toL "~~:\x7d"] =
        (fun r : PRes =>
          ((match r.val with
            | some v => v :: (ldMainGo 6 r.st false).1
            | none => (ldMainGo 6 r.st false).1),
           r.errs ++ (ldMainGo 6 r.st false).2))
          (parseGo 6 (Frame.fobj [] none none none 0)
            ⟨[toL "~~:*c", d, toL "~~:#a", toL "1", toL "~~:\x7d"], 1,
             toL "~~:\x7b"⟩) := rfl
    rw [hmain, h2]
    rfl
  · have h2 : parseGo 6 (Frame.farr [] none none none 0)
        ⟨[toL "~~:*x", d, toL "~~:#", toL "1", toL "~~:]"], 1, toL "~~:["⟩ =
        ⟨some (JValue.jarr [JValue.jfloat (strtodQ (toL "1"))]),
         ⟨[], 6, toL "~~:]"⟩, []⟩ := by
      have hstep1 : parseGo 6 (Frame.farr [] none none none 0)
          ⟨[toL "~~:*x", d, toL "~~:#", toL "1", toL "~~:]"], 1, toL "~~:["⟩ =
          parseGo 5 (Frame.farr [] none (some (toL "*x")) none 0)
            ⟨[d, toL "~~:#", toL "1", toL "~~:]"], 2, toL "~~:*x"⟩ := rfl
      rw [hstep1, parseGoDataStepArr 4 d _ 2 _ _ _ _ _ _ hd]
      by_cases hbl : is_blank (stripNL d) = true
      · rw [if_pos hbl]; exact c7arrTailNone _
      · rw [if_neg hbl]; exact c7arrTailSome _ _
    have hmain : ldJson [toL "~~:[", toL "~~:*x", d, toL "~~:#", toL "1",
        toL "~~:]"] =
        (fun r : PRes =>
          ((match r.val with
            | some v => v :: (ldMainGo 6 r.st false).1
            | none => (ldMainGo 6 r.st false).1),
           r.errs ++ (ldMainGo 6 r.st false).2))
          (parseGo 6 (Frame.farr [] none none none 0)
            ⟨[toL "~~:*x", d, toL "~~:#", toL "1", toL "~~:]"], 1,
             toL "~~:["⟩) := rfl
    rw [hmain, h2]
    rfl
  · have h : strtodQ (toL "1") =
        (1 : ℚ) * ((natOfDigits (toL "1") : ℕ) : ℚ) / ((10 : ℚ) ^ (0 : ℕ)) *
          ((10 : ℚ) ^ ((0 : ℕ) : ℤ)) := rfl
    rw [h, show (natOfDigits (toL "1")) = 1 from rfl]
    norm_num

/-- C7 witness: the amended claim at the deliberately malformed data line
"@@ 1.2.3 !!" in both contexts. -/
theorem c7_witness :
    ldJson [toL "~~:\x7b", toL "~~:*c", toL "@@ 1.2.3 !!", toL "~~:#a",
        toL "1", toL "~~:\x7d"] =
      ([JValue.jobj [(['a'], JValue.jint 1)]], []) ∧
    ldJson [toL "~~:[", toL "~~:*x", toL "@@ 1.2.3 !!", toL "~~:#",
        toL "1", toL "~~:]"] =
      ([JValue.jarr [JValue.jfloat (strtodQ (toL "1"))]], []) := by
  constructor
  · exact c7_amended.1 (toL "@@ 1.2.3 !!") (by decide)
  · exact c7_amended.2.1 (toL "@@ 1.2.3 !!") (by decide)

-- Shifting vnGood across a leading ordinary character ('+', '-', digit).
theorem vnGood_cons_plain (c : Char) (hc1 : c ≠ '.') (hc2 : c ≠ 'e')
    (cs : LC) (flag : Bool) (prev : Option Char) :
    vnGood (c :: cs) flag prev ↔
      ((c = '+' ∨ c = '-' ∨ isDigitC c = true) ∧ vnGood cs flag (some c)) := by
  unfold vnGood
  constructor
  · rintro ⟨hA, hB, hC⟩
    have hok0 := hA 0 (by simp)
    rw [charAt_cons_zero] at hok0
    refine ⟨?_, ?_, ?_, ?_⟩
    · rcases hok0 with h | h | h | h | h
      · exact absurd h hc2
      · exact absurd h hc1
      · exact Or.inl h
      · exact Or.inr (Or.inl h)
      · exact Or.inr (Or.inr h)
    · intro i hi
      have h := hA (i + 1) (by simp only [List.length_cons]; omega)
      rwa [charAt_cons_succ] at h
    · intro i hi hdot
      have h := hB (i + 1) (by simp only [List.length_cons]; omega)
        (by rwa [charAt_cons_succ])
      rw [charAt_cons_succ] at h
      refine ⟨⟨h.1.1, fun j hj => ?_⟩, h.2⟩
      have h3 := h.1.2 (j + 1) (by omega)
      rwa [charAt_cons_succ] at h3
    · intro i hi he
      have h := hC (i + 1) (by simp only [List.length_cons]; omega)
        (by rwa [charAt_cons_succ])
      rw [if_neg (by omega)] at h
      cases i with
      | zero =>
        rw [if_pos rfl]
        simpa using h
      | succ i =>
        rw [show (i + 1 + 1 - 1) = i + 1 from rfl, charAt_cons_succ] at h
        rw [if_neg (by omega), show (i + 1 - 1) = i from rfl]
        exact h
  · rintro ⟨hok, hA, hB, hC⟩
    refine ⟨?_, ?_, ?_⟩
    · intro i hi
      cases i with
      | zero => rw [charAt_cons_zero]; tauto
      | succ i =>
        rw [charAt_cons_succ]
        exact hA i (by simp only [List.length_cons] at hi; omega)
    · intro i hi hdot
      cases i with
      | zero => rw [charAt_cons_zero] at hdot; exact absurd hdot hc1
      | succ i =>
        rw [charAt_cons_succ] at hdot
        have h := hB i (by simp only [List.length_cons] at hi; omega) hdot
        refine ⟨⟨h.1.1, fun j hj => ?_⟩,
          by rw [charAt_cons_succ]; exact h.2⟩
        cases j with
        | zero => rw [charAt_cons_zero]; exact hc2
        | succ j => rw [charAt_cons_succ]; exact h.1.2 j (by omega)
    · intro i hi he
      cases i with
      | zero => rw [charAt_cons_zero] at he; exact absurd he hc2
      | succ i =>
        rw [charAt_cons_succ] at he
        have h := hC i (by simp only [List.length_cons] at hi; omega) he
        rw [if_neg (by omega), show (i + 1 - 1) = i from rfl]
        cases i with
        | zero => rw [charAt_cons_zero]; simpa using h
        | succ i =>
          rw [charAt_cons_succ]
          rwa [if_neg (by omega), show (i + 1 - 1) = i from rfl] at h

-- Shifting vnGood across a leading '.'.
theorem vnGood_cons_dot (cs : LC) (flag : Bool) (prev : Option Char) :
    vnGood ('.' :: cs) flag prev ↔
      (flag = false ∧ isDigitC (charAt cs 0) = true ∧
        vnGood cs flag (some '.')) := by
  unfold vnGood
  constructor
  · rintro ⟨hA, hB, hC⟩
    have h0 := hB 0 (by simp) (charAt_cons_zero '.' cs)
    refine ⟨h0.1.1, by have := h0.2; rwa [charAt_cons_succ] at this,
      ?_, ?_, ?_⟩
    · intro i hi
      have h := hA (i + 1) (by simp only [List.length_cons]; omega)
      rwa [charAt_cons_succ] at h
    · intro i hi hdot
      have h := hB (i + 1) (by simp only [List.length_cons]; omega)
        (by rwa [charAt_cons_succ])
      rw [charAt_cons_succ] at h
      refine ⟨⟨h.1.1, fun j hj => ?_⟩, h.2⟩
      have h3 := h.1.2 (j + 1) (by omega)
      rwa [charAt_cons_succ] at h3
    · intro i hi he
      have h := hC (i + 1) (by simp only [List.length_cons]; omega)
        (by rwa [charAt_cons_succ])
      rw [if_neg (by omega)] at h
      cases i with
      | zero =>
        rw [if_pos rfl]
        simpa using h
      | succ i =>
        rw [show (i + 1 + 1 - 1) = i + 1 from rfl, charAt_cons_succ] at h
        rw [if_neg (by omega), show (i + 1 - 1) = i from rfl]
        exact h
  · rintro ⟨hflag, hdig0, hA, hB, hC⟩
    refine ⟨?_, ?_, ?_⟩
    · intro i hi
      cases i with
      | zero => rw [charAt_cons_zero]; exact Or.inr (Or.inl rfl)
      | succ i =>
        rw [charAt_cons_succ]
        exact hA i (by simp only [List.length_cons] at hi; omega)
    · intro i hi hdot
      cases i with
      | zero =>
        exact ⟨⟨hflag, fun j hj => absurd hj (by omega)⟩,
          by rw [charAt_cons_succ]; exact hdig0⟩
      | succ i =>
        rw [charAt_cons_succ] at hdot
        have h := hB i (by simp only [List.length_cons] at hi; omega) hdot
        refine ⟨⟨h.1.1, fun j hj => ?_⟩,
          by rw [charAt_cons_succ]; exact h.2⟩
        cases j with
        | zero => rw [charAt_cons_zero]; decide
        | succ j => rw [charAt_cons_succ]; exact h.1.2 j (by omega)
    · intro i hi he
      cases i with
      | zero => rw [charAt_cons_zero] at he; exact absurd he (by decide)
      | succ i =>
        rw [charAt_cons_succ] at he
        have h := hC i (by simp only [List.length_cons] at hi; omega) he
        rw [if_neg (by omega), show (i + 1 - 1) = i from rfl]
        cases i with
        | zero => rw [charAt_cons_zero]; simpa using h
        | succ i =>
          rw [charAt_cons_succ]
          rwa [if_neg (by omega), show (i + 1 - 1) = i from rfl] at h

-- Shifting vnGood across a leading 'e'.
theorem vnGood_cons_e (cs : LC) (flag : Bool) (prev : Option Char) :
    vnGood ('e' :: cs) flag prev ↔
      (isDigitC (prev.getD '\x00') = true ∧ vnGood cs true (some 'e')) := by
  unfold vnGood
  constructor
  · rintro ⟨hA, hB, hC⟩
    have h0 := hC 0 (by simp) (charAt_cons_zero 'e' cs)
    rw [if_pos rfl] at h0
    refine ⟨h0, ?_, ?_, ?_⟩
    · intro i hi
      have h := hA (i + 1) (by simp only [List.length_cons]; omega)
      rwa [charAt_cons_succ] at h
    · intro i hi hdot
      have h := hB (i + 1) (by simp only [List.length_cons]; omega)
        (by rwa [charAt_cons_succ])
      have hcon := h.1.2 0 (by omega)
      rw [charAt_cons_zero] at hcon
      exact absurd rfl hcon
    · intro i hi he
      have h := hC (i + 1) (by simp only [List.length_cons]; omega)
        (by rwa [charAt_cons_succ])
      rw [if_neg (by omega)] at h
      cases i with
      | zero =>
        rw [show (0 + 1 - 1 : Nat) = 0 from rfl, charAt_cons_zero] at h
        simpa using h
      | succ i =>
        rw [show (i + 1 + 1 - 1) = i + 1 from rfl, charAt_cons_succ] at h
        rw [if_neg (by omega), show (i + 1 - 1) = i from rfl]
        exact h
  · rintro ⟨hdig, hA, hB, hC⟩
    refine ⟨?_, ?_, ?_⟩
    · intro i hi
      cases i with
      | zero => rw [charAt_cons_zero]; exact Or.inl rfl
      | succ i =>
        rw [charAt_cons_succ]
        exact hA i (by simp only [List.length_cons] at hi; omega)
    · intro i hi hdot
      cases i with
      | zero => rw [charAt_cons_zero] at hdot; exact absurd hdot (by decide)
      | succ i =>
        rw [charAt_cons_succ] at hdot
        exact absurd (hB i (by simp only [List.length_cons] at hi; omega)
          hdot).1.1 (by decide)
    · intro i hi he
      cases i with
      | zero => rw [if_pos rfl]; exact hdig
      | succ i =>
        rw [charAt_cons_succ] at he
        have h := hC i (by simp only [List.length_cons] at hi; omega) he
        rw [if_neg (by omega), show (i + 1 - 1) = i from rfl]
        cases i with
        | zero => rw [charAt_cons_zero]; simpa using h
        | succ i =>
          rw [charAt_cons_succ]
          rwa [if_neg (by omega), show (i + 1 - 1) = i from rfl] at h

-- The vnLoop scanning loop decides exactly the vnGood conditions.
theorem vnLoop_iff : ∀ (cs : LC) (flag : Bool) (prev : Option Char),
    vnLoop flag prev cs = true ↔ vnGood cs flag prev := by
  intro cs
  induction cs with
  | nil =>
    intro flag prev
    simp [vnLoop, vnGood]
  | cons c cs ih =>
    intro flag prev
    by_cases hok : c = 'e' ∨ c = '.' ∨ c = '+' ∨ c = '-' ∨ isDigitC c = true
    · by_cases hdot : c = '.'
      · subst hdot
        have hL : vnLoop flag prev ('.' :: cs) =
            (if flag = true then false
             else if ¬ isDigitC (charAt cs 0) = true then false
             else vnLoop flag (some '.') cs) := rfl
        rw [hL, vnGood_cons_dot cs flag prev]
        cases flag with
        | true => simp
        | false =>
          by_cases hdig : isDigitC (charAt cs 0) = true
          · simp only [if_neg (by decide : ¬ (false = true)), hdig]
            simp [ih false (some '.')]
          · simp [hdig]
      · by_cases he : c = 'e'
        · subst he
          have hL : vnLoop flag prev ('e' :: cs) =
              (if ¬ isDigitC (prev.getD '\x00') = true then false
               else if charAt cs 0 ≠ '+' ∧ charAt cs 0 ≠ '-' ∧
                   ('0' ≤ charAt cs 0 ∧ 'e' ≤ '9') then false
               else vnLoop true (some 'e') cs) := rfl
          rw [hL, vnGood_cons_e cs flag prev]
          by_cases hdg : isDigitC (prev.getD '\x00') = true
          · rw [if_neg (by simp [hdg]),
              if_neg (fun hcon => absurd hcon.2.2.2 (by decide))]
            simp [hdg, ih true (some 'e')]
          · rw [if_pos (by simp [hdg])]
            simp [hdg]
        · have hL : vnLoop flag prev (c :: cs) =
              (if ¬(c = 'e' ∨ c = '.' ∨ c = '+' ∨ c = '-' ∨ isDigitC c = true)
                 then false
               else if c = '.' then
                 (if flag = true then false
                  else if ¬ isDigitC (charAt cs 0) = true then false
                  else vnLoop flag (some c) cs)
               else if c = 'e' then
                 (if ¬ isDigitC (prev.getD '\x00') = true then false
                  else if charAt cs 0 ≠ '+' ∧ charAt cs 0 ≠ '-' ∧
                      ('0' ≤ charAt cs 0 ∧ c ≤ '9') then false
                  else vnLoop true (some c) cs)
               else vnLoop flag (some c) cs) := by
            simp only [vnLoop]
          rw [hL, if_neg (not_not_intro hok), if_neg hdot, if_neg he,
            vnGood_cons_plain c hdot he cs flag prev, ih flag (some c)]
          have hok' : c = '+' ∨ c = '-' ∨ isDigitC c = true := by
            rcases hok with h | h | h | h | h
            · exact absurd h he
            · exact absurd h hdot
            · exact Or.inl h
            · exact Or.inr (Or.inl h)
            · exact Or.inr (Or.inr h)
          simp [hok']
    · have hL : vnLoop flag prev (c :: cs) = false := by
        simp only [vnLoop]
        rw [if_pos hok]
      rw [hL]
      constructor
      · intro h; exact absurd h (by decide)
      · rintro ⟨hA, -, -⟩
        have h0 := hA 0 (by simp)
        rw [charAt_cons_zero] at h0
        exact absurd h0 hok

set_option maxHeartbeats 1000000 in
/-- C4 (amended): valid_number accepts exactly the code grammar: after
trimming spaces the text is non-empty; a single-character text is a
digit; the first character is a digit, '+', '-' or '.'; every character
is a digit, '.', '+', '-' or 'e'; every '.' is immediately followed by a
digit and not preceded anywhere earlier by an 'e'; and every 'e' is
immediately preceded by a digit.  (Unlike the specification's grammar,
nothing limits the total number of '.'/'e' markers: "1.2.3", "1e2e3" and
"1.2e3" are all accepted.) -/
theorem c4_amended : ∀ s : LC, valid_number s = true ↔ codeNumGrammar s := by
  intro s
  unfold valid_number codeNumGrammar codeNumGrammarCore
  cases ht : trimSpacesBoth s with
  | nil => simp
  | cons c rest =>
    dsimp only
    by_cases h1 : rest = [] ∧ ¬ isDigitC c = true
    · rw [if_pos h1]
      constructor
      · intro h; exact absurd h (by decide)
      · rintro ⟨-, hlen1, -, -⟩
        have : isDigitC (charAt (c :: rest) 0) = true := by
          apply hlen1
          simp [h1.1]
        rw [charAt_cons_zero] at this
        exact absurd this h1.2
    · by_cases h2 : ¬(c = '.' ∨ c = '+' ∨ c = '-' ∨ isDigitC c = true)
      · rw [if_neg h1, if_pos h2]
        constructor
        · intro h; exact absurd h (by decide)
        · rintro ⟨-, -, hfirst, -⟩
          rw [charAt_cons_zero] at hfirst
          exact absurd (by tauto) h2
      · rw [if_neg h1, if_neg h2, vnLoop_iff]
        constructor
        · rintro ⟨hA, hB, hC⟩
          refine ⟨by simp, ?_, ?_, fun i hi => by have := hA i hi; tauto,
            ?_, ?_⟩
          · intro hlen
            rw [charAt_cons_zero]
            have hrest : rest = [] := by simpa using hlen
            rcases Decidable.em (isDigitC c = true) with h | h
            · exact h
            · exact absurd ⟨hrest, h⟩ h1
          · rw [charAt_cons_zero]
            have := not_not.mp h2
            tauto
          · intro i hi hdot
            have h := hB i hi hdot
            exact ⟨h.1.2, h.2⟩
          · intro i hi he
            have h := hC i hi he
            by_cases hz : i = 0
            · subst hz
              rw [if_pos rfl] at h
              exact absurd h (by decide)
            · rw [if_neg hz] at h
              exact ⟨Nat.pos_of_ne_zero hz, h⟩
        · rintro ⟨-, hlen1, hfirst, hA, hB, hC⟩
          refine ⟨fun i hi => by have := hA i hi; tauto, ?_, ?_⟩
          · intro i hi hdot
            exact ⟨⟨rfl, (hB i hi hdot).1⟩, (hB i hi hdot).2⟩
          · intro i hi he
            have h := hC i hi he
            have hz : ¬ i = 0 := by omega
            rw [if_neg hz]
            exact h.2

theorem charAt_ne (rem : LC) (c : Char) (hc : c ≠ '\x00') (h : c ∉ rem)
    (k : Nat) : charAt rem k ≠ c := by
  intro he
  unfold charAt at he
  rcases Nat.lt_or_ge k rem.length with hk | hk
  · rw [List.getD_eq_getElem rem '\x00' hk] at he
    exact h (he ▸ List.getElem_mem hk)
  · rw [List.getD_eq_default rem '\x00' hk] at he
    exact hc he.symm

theorem charAt_lt_length (rem : LC) (k : Nat) (hk : k < rem.length)
    (h : charAt rem k = '\x00') : ('\x00' : Char) ∈ rem := by
  unfold charAt at h
  rw [List.getD_eq_getElem rem '\x00' hk] at h
  exact h ▸ List.getElem_mem hk

-- The chunk copy loop, when the chunk contains no newline: it copies the
-- first l characters verbatim and leaves l unchanged.
theorem ccAux_no_nl : ∀ (f j l : Nat) (rem : LC),
    (∀ k, j ≤ k → k < l → charAt rem k ≠ '\n') → l - j ≤ f →
    l ≤ rem.length →
    ccAux rem f j l = ((rem.drop j).take (l - j), l) := by
  intro f
  induction f with
  | zero =>
    intro j l rem _ hf _
    have : l - j = 0 := by omega
    rw [this]
    simp [ccAux]
  | succ f ih =>
    intro j l rem hnl hf hlen
    by_cases hjl : j < l
    · have hstep : ccAux rem (f + 1) j l =
          (charAt rem j :: (ccAux rem f (j + 1) l).1,
           (ccAux rem f (j + 1) l).2) := by
        simp only [ccAux]
        rw [if_pos hjl, if_neg (hnl j (le_refl j) hjl)]
      rw [hstep, ih (j + 1) l rem (fun k hk1 hk2 => hnl k (by omega) hk2)
        (by omega) hlen]
      have hdrop : rem.drop j = rem[j] :: rem.drop (j + 1) :=
        List.drop_eq_getElem_cons (by omega)
      have hchar : charAt rem j = rem[j] :=
        List.getD_eq_getElem rem '\x00' (by omega)
      rw [hdrop, hchar, show l - j = (l - (j + 1)) + 1 by omega,
        List.take_succ_cons]
    · have : l - j = 0 := by omega
      rw [this]
      simp only [ccAux]
      rw [if_neg hjl]
      simp

theorem biAux_some (rem : LC) : ∀ k j, biAux rem k = some j →
    1 ≤ j ∧ j ≤ k ∧ isSpaceC (charAt rem j) = true := by
  intro k
  induction k with
  | zero => intro j h; exact absurd h (by simp [biAux])
  | succ k ih =>
    intro j h
    simp only [biAux] at h
    by_cases hs : isSpaceC (charAt rem (Nat.succ k)) = true
    · rw [if_pos hs] at h
      cases h
      exact ⟨by omega, le_refl _, hs⟩
    · rw [if_neg hs] at h
      obtain ⟨h1, h2, h3⟩ := ih j h
      exact ⟨h1, by omega, h3⟩

theorem biAux_none (rem : LC) : ∀ k, biAux rem k = none →
    ∀ j, 1 ≤ j → j ≤ k → ¬ isSpaceC (charAt rem j) = true := by
  intro k
  induction k with
  | zero => intro _ j h1 h2 _; omega
  | succ k ih =>
    intro h j h1 h2
    simp only [biAux] at h
    by_cases hs : isSpaceC (charAt rem (Nat.succ k)) = true
    · rw [if_pos hs] at h; cases h
    · rw [if_neg hs] at h
      rcases Nat.lt_or_ge j (k + 1) with hj | hj
      · exact ih h j h1 (by omega)
      · have : j = k + 1 := by omega
        rw [this]
        exact hs

theorem copyChunk_no_nl (rem : LC) (l : Nat) (hnl : '\n' ∉ rem)
    (hlen : l ≤ rem.length) : copyChunk rem l = (rem.take l, l) := by
  unfold copyChunk
  rw [ccAux_no_nl l 0 l rem
    (fun k _ _ => charAt_ne rem '\n' (by decide) hnl k) (by omega) hlen]
  simp

theorem charAt_take (rem : LC) (n k : Nat) (h : k < n) :
    charAt (rem.take n) k = charAt rem k := by
  unfold charAt
  rcases Nat.lt_or_ge k rem.length with hk | hk
  · have h1 : k < (rem.take n).length := by
      simp [List.length_take]; omega
    rw [List.getD_eq_getElem _ _ h1, List.getD_eq_getElem _ _ hk]
    exact List.getElem_take rem
  · have h2 : (rem.take n).length ≤ k := by
      simp [List.length_take]; omega
    rw [List.getD_eq_default _ _ h2, List.getD_eq_default _ _ hk]

-- The wrap loop on a newline-free, NUL-free string: the produced chunk
-- bodies concatenate to the input, there is at least one, each is at most
-- ll + 1 long, and a body of exactly ll + 1 characters occurs only for a
-- mid-word break, i.e. when no whitespace occurs at its positions
-- 1 .. ll-1.
theorem wgAux_spec : ∀ (f : Nat) (rem : LC) (ll : Nat), 0 < ll →
    rem.length < f → '\n' ∉ rem → '\x00' ∉ rem →
    (wgAux ll f rem rem.length).flatten = rem ∧
    wgAux ll f rem rem.length ≠ [] ∧
    (∀ b ∈ wgAux ll f rem rem.length, b.length ≤ ll + 1) ∧
    (∀ b ∈ wgAux ll f rem rem.length, b.length = ll + 1 →
      ∀ k, 1 ≤ k → k < ll → ¬ isSpaceC (charAt b k) = true) := by
  intro f
  induction f with
  | zero => intro rem ll _ hf _ _; omega
  | succ f ih =>
    intro rem ll hll hf hnl hnz
    by_cases hrl : rem.length ≤ ll
    · have hone : wgAux ll (f + 1) rem rem.length = [rem] := by
        simp only [wgAux]
        rw [if_pos hrl]
      rw [hone]
      refine ⟨by simp, by simp, ?_, ?_⟩
      · intro b hb
        rw [List.mem_singleton] at hb
        subst hb
        omega
      · intro b hb hlen
        rw [List.mem_singleton] at hb
        subst hb
        omega
    · push_neg at hrl
      have heb : (1 ≤ breakIndex rem ll ∧ breakIndex rem ll ≤ ll - 1 ∧
            isSpaceC (charAt rem (breakIndex rem ll)) = true) ∨
          (breakIndex rem ll = ll ∧
            ∀ j, 1 ≤ j → j ≤ ll - 1 → ¬ isSpaceC (charAt rem j) = true) := by
        unfold breakIndex
        cases hbi : biAux rem (ll - 1) with
        | some k =>
          obtain ⟨h1, h2, h3⟩ := biAux_some rem (ll - 1) k hbi
          exact Or.inl ⟨h1, h2, h3⟩
        | none => exact Or.inr ⟨rfl, biAux_none rem (ll - 1) hbi⟩
      have he1 : breakIndex rem ll + 1 ≤ ll + 1 := by
        rcases heb with ⟨-, h2, -⟩ | ⟨h, -⟩ <;> omega
      have hle : breakIndex rem ll + 1 ≤ rem.length := by omega
      have hcc : copyChunk rem (breakIndex rem ll + 1) =
          (rem.take (breakIndex rem ll + 1), breakIndex rem ll + 1) :=
        copyChunk_no_nl rem _ hnl hle
      have hstep : wgAux ll (f + 1) rem rem.length =
          (if charAt rem (breakIndex rem ll + 1) = '\x00' then
            [rem.take (breakIndex rem ll + 1)]
          else
            rem.take (breakIndex rem ll + 1) ::
              wgAux ll f (rem.drop (breakIndex rem ll + 1))
                (rem.length - (breakIndex rem ll + 1))) := by
        simp only [wgAux]
        rw [if_neg (by omega), hcc]
      have htklen : (rem.take (breakIndex rem ll + 1)).length =
          breakIndex rem ll + 1 := by
        rw [List.length_take]
        omega
      by_cases hz : charAt rem (breakIndex rem ll + 1) = '\x00'
      · have hend : breakIndex rem ll + 1 = rem.length := by
          rcases Nat.lt_or_ge (breakIndex rem ll + 1) rem.length with hk | hk
          · exact absurd (charAt_lt_length rem _ hk hz) hnz
          · omega
        have htk : rem.take (breakIndex rem ll + 1) = rem := by
          rw [hend, List.take_length]
        rw [hstep, if_pos hz, htk]
        refine ⟨by simp, by simp, ?_, ?_⟩
        · intro b hb
          rw [List.mem_singleton] at hb
          subst hb
          omega
        · intro b hb hlen
          rw [List.mem_singleton] at hb
          rw [hb] at hlen
          rw [hb]
          intro k hk1 hk2
          rcases heb with ⟨-, h2, -⟩ | ⟨-, hwin⟩
          · omega
          · exact hwin k hk1 (by omega)
      · have hlt : breakIndex rem ll + 1 < rem.length := by
          rcases Nat.lt_or_ge (breakIndex rem ll + 1) rem.length with hk | hk
          · exact hk
          · exact absurd (by unfold charAt; exact List.getD_eq_default rem _ hk) hz
        have hdl : (rem.drop (breakIndex rem ll + 1)).length =
            rem.length - (breakIndex rem ll + 1) := by
          rw [List.length_drop]
        obtain ⟨ihf, ihne, ihlen, ihwin⟩ := ih (rem.drop (breakIndex rem ll + 1)) ll hll
          (by omega)
          (fun hm => hnl (List.drop_subset _ _ hm))
          (fun hm => hnz (List.drop_subset _ _ hm))
        rw [hdl] at ihf ihne ihlen ihwin
        rw [hstep, if_neg hz]
        refine ⟨?_, by simp, ?_, ?_⟩
        · rw [List.flatten_cons, ihf, List.take_append_drop]
        · intro b hb
          rcases List.mem_cons.mp hb with hb | hb
          · subst hb; omega
          · exact ihlen b hb
        · intro b hb hlen
          rcases List.mem_cons.mp hb with hb | hb
          · subst hb
            intro k hk1 hk2
            rw [htklen] at hlen
            rcases heb with ⟨-, h2, -⟩ | ⟨-, hwin⟩
            · omega
            · rw [charAt_take rem _ k (by omega)]
              exact hwin k hk1 (by omega)
          · exact ihwin b hb hlen

/-- C9 (amended): for a string with no literal newline (and no NUL byte)
and indent < width, wrap produces at least one line, each line being the
indent spaces followed by a chunk of the string; the chunks concatenate
to exactly the input (all characters preserved in order); each chunk has
at most width - indent + 1 characters — one OVER the claimed width
limit — and a chunk of exactly width - indent + 1 characters occurs only
for a mid-word break, when no whitespace occupies its positions
1 .. width-indent-1.  (With embedded newlines the original claim's
behavior fails: see the counterexample.) -/
theorem c9_amended : ∀ (s : LC) (w i : Nat), i < w → '\n' ∉ s → '\x00' ∉ s →
    ∃ bodies, wrap s w i =
        some (bodies.map (fun b => List.replicate i ' ' ++ b)) ∧
      bodies ≠ [] ∧ bodies.flatten = s ∧
      (∀ b ∈ bodies, b.length ≤ (w - i) + 1) ∧
      (∀ b ∈ bodies, b.length = (w - i) + 1 →
        ∀ k, 1 ≤ k → k < w - i → ¬ isSpaceC (charAt b k) = true) := by
  intro s w i hiw hnl hnz
  obtain ⟨h1, h2, h3, h4⟩ := wgAux_spec (s.length + 2) s (w - i)
    (by omega) (by omega) hnl hnz
  refine ⟨wgAux (w - i) (s.length + 2) s s.length, ?_, h2, h1, h3, h4⟩
  unfold wrap
  rw [if_neg (by omega)]

/-- C9 witness: the amended statement at the string "hello world" with
width 8 and indent 0. -/
theorem c9_witness :
    ∃ bodies, wrap (toL "hello world") 8 0 =
        some (bodies.map (fun b => List.replicate 0 ' ' ++ b)) ∧
      bodies ≠ [] ∧ bodies.flatten = toL "hello world" ∧
      (∀ b ∈ bodies, b.length ≤ (8 - 0) + 1) ∧
      (∀ b ∈ bodies, b.length = (8 - 0) + 1 →
        ∀ k, 1 ≤ k → k < 8 - 0 → ¬ isSpaceC (charAt b k) = true) :=
  c9_amended (toL "hello world") 8 0 (by decide) (by decide) (by decide)
